import Mathlib

/-!
Verification of the humphrey HTML scraper.

The development shallowly embeds the Go sources: `humphrey.go` (the variant
with the `arrays`, `strict`, `pretty` flags and a colon rule delimiter),
the older variant in `part_001` (slash rule delimiter, single `page` URL,
always-array results), and the nested-name variant embedded at the end of
`README.md` after the document separator (`prepare`/`addValues`, dotted
rule names).  Library collaborators (goquery selector matching,
`html.UnescapeString`, `strings.TrimSpace`, `net/http`, `encoding/json`) are
modelled explicitly where their observable behaviour matters to the claims.
-/

/-- Go `unicode.IsSpace` restricted to the Latin-1 range (tab, newline,
vertical tab, form feed, carriage return, space, NEL, no-break space); the
higher White_Space code points are not exercised by this development. -/
def isGoSpace (c : Char) : Bool :=
  c.toNat = 9 ∨ c.toNat = 10 ∨ c.toNat = 11 ∨ c.toNat = 12 ∨ c.toNat = 13 ∨
  c.toNat = 32 ∨ c.toNat = 133 ∨ c.toNat = 160

/-- Model of Go `strings.TrimSpace`: drop leading and trailing white space. -/
def trimSpace (s : String) : String :=
  String.mk (((s.toList.dropWhile fun c => isGoSpace c).reverse.dropWhile
      fun c => isGoSpace c).reverse)

/-- Model of the library collaborator `html.UnescapeString` on the entity set
exercised in this development (a few named entities and two numeric ones);
all other text, including invalid entities, is copied unchanged, as Go does. -/
def unescAux : List Char → List Char
  | '&' :: '#' :: '3' :: '2' :: ';' :: rest => ' ' :: unescAux rest
  | '&' :: '#' :: '9' :: ';' :: rest => '\t' :: unescAux rest
  | '&' :: 'a' :: 'm' :: 'p' :: ';' :: rest => '&' :: unescAux rest
  | '&' :: 'l' :: 't' :: ';' :: rest => '<' :: unescAux rest
  | '&' :: 'g' :: 't' :: ';' :: rest => '>' :: unescAux rest
  | '&' :: 'q' :: 'u' :: 'o' :: 't' :: ';' :: rest => '"' :: unescAux rest
  | '&' :: 'n' :: 'b' :: 's' :: 'p' :: ';' :: rest => Char.ofNat 160 :: unescAux rest
  | c :: rest => c :: unescAux rest
  | [] => []

/-- HTML-entity unescaping on strings (model of `html.UnescapeString`). -/
def unescapeString (s : String) : String :=
  String.mk (unescAux s.toList)

/-- Split a character list at the first occurrence of `c`: the part before
and the part after, or `none` when `c` does not occur. -/
def splitFirst (c : Char) : List Char → Option (List Char × List Char)
  | [] => none
  | x :: xs =>
    if x = c then some ([], xs)
    else
      match splitFirst c xs with
      | none => none
      | some (b, a) => some (x :: b, a)

/-- Model of Go `strings.SplitN(s, sep, 3)` for a one-character separator:
at most three parts, the third keeping any later separators verbatim. -/
def splitN3 (sep : Char) (s : String) : List String :=
  match splitFirst sep s.toList with
  | none => [s]
  | some (a, rest) =>
    match splitFirst sep rest with
    | none => [String.mk a, String.mk rest]
    | some (b, rest2) => [String.mk a, String.mk b, String.mk rest2]

/-- Error kinds of the fetch-and-apply pipeline.  The Go sources carry
these as `fmt.Errorf` strings; the constructors record the same payloads.
The name-mismatch errors of the nested-name variant's `prepare` pass have
their own type further below. -/
inductive ScrapeError where
  | malformedRule (s : String)
  | netFailure (msg : String)
  | httpStatus (code : Nat) (u : String)
  | parseFailure (msg : String)
deriving DecidableEq, Repr

/-- A parsing rule for an html page, from `humphrey.go` (`type rule struct`):
`Selector` is a css selector, `Attribute` empty means "use element text",
`Name` is the key in the generated result map. -/
structure rule where
  Name : String
  Selector : String
  Attribute : String
deriving DecidableEq, Repr

/-- `newRule` from `humphrey.go`: split on the first two colons; two or
three tokens build a rule (missing attribute becomes the empty string),
anything else is a malformed-rule error carrying the offending string. -/
def newRule (s : String) : Except ScrapeError rule :=
  match splitN3 ':' s with
  | [a, b] => .ok ⟨a, b, ""⟩
  | [a, b, c] => .ok ⟨a, b, c⟩
  | _ => .error (.malformedRule s)

/-- An HTML element as seen through goquery: its rendered text (`Text()`)
and its attribute list (`Attr` returns the first binding of a name). -/
structure Element where
  text : String
  attrs : List (String × String)
deriving DecidableEq, Repr

/-- A parsed document, abstracted to what goquery's `Find` provides: each
selector yields the list of matching elements in document order. -/
abbrev Doc := String → List Element

/-- First-occurrence lookup in an association list; models both a Go map
read and goquery's `Attr`. -/
def mapGet {α : Type} : List (String × α) → String → Option α
  | [], _ => none
  | (k0, v0) :: rest, k => if k0 = k then some v0 else mapGet rest k

/-- Go map assignment `m[k] = v`: replace the binding of `k` if present,
otherwise add it. -/
def mapSet {α : Type} : List (String × α) → String → α → List (String × α)
  | [], k, v => [(k, v)]
  | (k0, v0) :: rest, k, v =>
    if k0 = k then (k, v) :: rest else (k0, v0) :: mapSet rest k v

/-- The raw per-element value inside `rule.apply` (both variants, identical
code): element text when the rule names no attribute, otherwise the
attribute's value if present and the empty string if absent. -/
def rawVal (r : rule) (e : Element) : String :=
  if r.Attribute = "" then e.text
  else
    match mapGet e.attrs r.Attribute with
    | some v => v
    | none => ""

/-- The string appended for one matched element in `rule.apply`:
`html.UnescapeString(strings.TrimSpace(val))`. -/
def extractVal (r : rule) (e : Element) : String :=
  unescapeString (trimSpace (rawVal r e))

/-- The full extraction list of a rule over a document, in document order. -/
def extractList (r : rule) (doc : Doc) : List String :=
  (doc r.Selector).map (extractVal r)

/-- A Go `[]string` value: its elements plus whether the header is nil
(`var vals []string` starts nil; `make([]string, 0)` and any `append`
result are non-nil).  The distinction is observable in JSON output. -/
structure GoStrSlice where
  elems : List String
  isNil : Bool
deriving DecidableEq, Repr

/-- The nil slice `var vals []string`. -/
def GoStrSlice.nilSlice : GoStrSlice := ⟨[], true⟩

/-- The empty non-nil slice `make([]string, 0)`. -/
def GoStrSlice.make0 : GoStrSlice := ⟨[], false⟩

/-- Go `append(s, x)`: always returns a non-nil slice. -/
def GoStrSlice.push (s : GoStrSlice) (x : String) : GoStrSlice :=
  ⟨s.elems ++ [x], false⟩

/-- A value stored in the result map `map[string]interface{}`: the Go `nil`
interface, a string, or a string slice. -/
inductive Value where
  | vNil
  | vStr (s : String)
  | vSlice (xs : GoStrSlice)
deriving DecidableEq, Repr

/-- The top-level JSON shape `encoding/json` gives a stored value: Go `nil`
and nil slices encode as `null`, non-nil slices as arrays. -/
inductive JSONShape where
  | null
  | string
  | array
deriving DecidableEq, Repr

/-- How `encoding/json` encodes each `Value` (library collaborator model). -/
def Value.jsonShape : Value → JSONShape
  | .vNil => .null
  | .vStr _ => .string
  | .vSlice s => if s.isNil then .null else .array

/-- The result map built per document. -/
abbrev RMap := List (String × Value)

namespace humphrey

/-- The `vals` slice built by the `Each` loop of `rule.apply` in
`humphrey.go`: starts as `var vals []string` (nil) and appends one
extracted string per matched element. -/
def rule.buildVals (r : rule) (doc : Doc) : GoStrSlice :=
  (doc r.Selector).foldl (fun acc e => acc.push (extractVal r e)) GoStrSlice.nilSlice

/-- The value `rule.apply` of `humphrey.go` stores: always the slice when
`as_array` is set or more than one element matched; otherwise Go `nil` for
zero matches and the single string for one match. -/
def rule.applyVal (r : rule) (doc : Doc) (as_array : Bool) : Value :=
  let vals := rule.buildVals r doc
  if as_array ∨ 1 < vals.elems.length then .vSlice vals
  else
    match vals.elems with
    | [] => .vNil
    | v :: _ => .vStr v

/-- `rule.apply` of `humphrey.go`: write the computed value into the map
under the rule's name. -/
def rule.apply (r : rule) (doc : Doc) (m : RMap) (as_array : Bool) : RMap :=
  mapSet m r.Name (rule.applyVal r doc as_array)

end humphrey

namespace part001

/-- `newRule` of the `part_001` variant: identical to `humphrey.go` apart
from the slash delimiter. -/
def newRule (s : String) : Except ScrapeError rule :=
  match splitN3 '/' s with
  | [a, b] => .ok ⟨a, b, ""⟩
  | [a, b, c] => .ok ⟨a, b, c⟩
  | _ => .error (.malformedRule s)

/-- The `vals` slice of `rule.apply` in `part_001`: starts as
`make([]string, 0)` (non-nil) and appends one string per matched element. -/
def rule.buildVals (r : rule) (doc : Doc) : GoStrSlice :=
  (doc r.Selector).foldl (fun acc e => acc.push (extractVal r e)) GoStrSlice.make0

/-- The value `rule.apply` of `part_001` stores: always the slice. -/
def rule.applyVal (r : rule) (doc : Doc) : Value :=
  .vSlice (rule.buildVals r doc)

/-- `rule.apply` of `part_001`: write the slice under the rule's name. -/
def rule.apply (r : rule) (doc : Doc) (m : RMap) : RMap :=
  mapSet m r.Name (rule.applyVal r doc)

end part001

deriving instance DecidableEq for Except

/-- What the HTTP layer hands back for one request (library collaborator
model of `net/http`): either a transport error, or a response carrying a
status code and the outcome of reading its body to the end. -/
inductive FetchOutcome where
  | netErr (msg : String)
  | resp (status : Nat) (bodyRead : Except String String)
deriving DecidableEq, Repr

/-- `download` from `humphrey.go`: propagate the transport error, reject any
status other than 200 (recording status and url), propagate a body-read
error, otherwise return the full body. -/
def download (o : FetchOutcome) (u : String) : Except ScrapeError String :=
  match o with
  | .netErr msg => .error (.netFailure msg)
  | .resp status bodyRead =>
    if status ≠ 200 then .error (.httpStatus status u)
    else
      match bodyRead with
      | .error msg => .error (.netFailure msg)
      | .ok body => .ok body

/-- The 2xx success class of HTTP statuses — taken from the spec's words
("non-success HTTP status"), to be compared with the code's 200-only check. -/
def isSuccessStatus (n : Nat) : Bool :=
  200 ≤ n && n < 300

/-- The rule loop of `downloadAndApplyRules`: apply each rule in turn to a
fresh result map. -/
def applyRules (rules : List rule) (doc : Doc) (as_array : Bool) : RMap :=
  rules.foldl (fun m r => humphrey.rule.apply r doc m as_array) []

/-- `downloadAndApplyRules` from `humphrey.go`: download the url, parse the
body into a document (goquery, modelled as an oracle), then apply every
rule.  Errors from downloading or parsing are returned as such. -/
def downloadAndApplyRules (net : String → FetchOutcome)
    (parseDoc : String → Except String Doc) (rules : List rule)
    (as_array : Bool) (u : String) : Except ScrapeError RMap :=
  match download (net u) u with
  | .error e => .error e
  | .ok body =>
    match parseDoc body with
    | .error msg => .error (.parseFailure msg)
    | .ok doc => .ok (applyRules rules doc as_array)

/-- The per-line loop of `main` in `humphrey.go`: trim the line, run
`downloadAndApplyRules`; on success store the url under `key` and render the
map; on failure abort with the error when strict, else continue.  The
returned pair is the list of rendered maps in output order and the exit
diagnostic (`none` means exit status zero). -/
def mainLoop (step : String → Except ScrapeError RMap) (key : String)
    (strict : Bool) : List String → List RMap × Option ScrapeError
  | [] => ([], none)
  | l :: ls =>
    match step (trimSpace l) with
    | .ok m =>
      let rest := mainLoop step key strict ls
      (mapSet m key (Value.vStr (trimSpace l)) :: rest.1, rest.2)
    | .error e =>
      if strict then ([], some e) else mainLoop step key strict ls

/-- Go `bufio.ScanLines` helper `dropCR`: drop one trailing carriage
return. -/
def dropCR (l : List Char) : List Char :=
  if l.reverse.head? = some '\x0d' then l.reverse.tail.reverse else l

/-- Accumulating scanner for `bufio.ScanLines`: split at each newline; the
final fragment is a token even without a trailing newline, and a trailing
newline produces no extra empty token. -/
def scanLinesAux : List Char → List Char → List (List Char)
  | acc, [] => [dropCR acc.reverse]
  | acc, c :: cs =>
    if c = '\n' then
      dropCR acc.reverse :: (if cs.isEmpty then [] else scanLinesAux [] cs)
    else scanLinesAux (c :: acc) cs

/-- Model of a `bufio.Scanner` with `ScanLines` over a string: the list of
lines it yields (none for the empty string). -/
def scanLines (s : String) : List String :=
  match s.toList with
  | [] => []
  | cs => (scanLinesAux [] cs).map String.mk

/-- The whole `main` of `humphrey.go` after flag parsing, for an already
built rule list: scan the `page` string when it is non-empty, otherwise the
lines of standard input, and run the per-line loop.  Template rendering and
JSON encoding are collaborators; outputs are modelled as the rendered
maps. -/
def humphreyRun (net : String → FetchOutcome)
    (parseDoc : String → Except String Doc) (rules : List rule)
    (key page : String) (strict as_array : Bool)
    (stdinLines : List String) : List RMap × Option ScrapeError :=
  mainLoop (downloadAndApplyRules net parseDoc rules as_array) key strict
    (if page ≠ "" then scanLines page else stdinLines)

/-- Go `strings.Join(l, ".")` as interpolated into the name-mismatch
errors of `prepare` in the nested-name variant (the Go source embedded at
the end of `README.md`, after the document separator). -/
def joinDots : List String → String
  | [] => ""
  | [x] => x
  | x :: xs => x ++ "." ++ joinDots xs

/-- Accumulating splitter for Go `strings.Split(name, ".")`. -/
def splitNameAux : List Char → List Char → List (List Char)
  | acc, [] => [acc.reverse]
  | acc, c :: cs =>
    if c = '.' then acc.reverse :: splitNameAux [] cs
    else splitNameAux (c :: acc) cs

/-- `strings.Split(name, ".")` on a rule name, as used by `prepare` and
`addValues` of the README-embedded nested-name variant. -/
def splitName (s : String) : List String :=
  (splitNameAux [] s.toList).map String.mk

/-- A value of the nested result map `map[string]any` of the
README-embedded variant: the shapes its code stores are `[]string`,
`[]map[string]string`, a nested `map[string]any`, and the url string
`main` writes under the key at the end. -/
inductive NVal where
  | vstr (s : String)
  | vlist (xs : List String)
  | vrecs (rs : List (List (String × String)))
  | vobj (m : List (String × NVal))

/-- The nested result mapping `map[string]any`. -/
abbrev NMap := List (String × NVal)

/-- The `name mismatch` errors of `prepare` in the README-embedded
variant: each `fmt.Errorf` carries a slot path (a joined segment list)
and the global list of all rule names. -/
inductive NameMismatch where
  | notObj (path : String) (rules : List String)
  | notStrList (path : String) (rules : List String)
  | notRecList (path : String) (rules : List String)
deriving DecidableEq, Repr

/-- The terminal handling of `prepare` (README-embedded variant): one
terminal must already be a `[]string` or becomes an empty one, two
terminals must already be a `[]map[string]string` or become an empty one;
a slot of any other shape is a name mismatch whose path is the full name
for one terminal and the name without its final segment for two.  The
final catch-all arm is unreachable: the terminals list always has one or
two segments. -/
def prepareTerminals (ruleNames : List String) (parts : List String)
    (terminals : List String) (parent : NMap) : Except NameMismatch NMap :=
  match terminals with
  | [t] =>
    match mapGet parent t with
    | some (NVal.vlist _) => .ok parent
    | some _ => .error (.notStrList (joinDots parts) ruleNames)
    | none => .ok (mapSet parent t (NVal.vlist []))
  | [t1, _] =>
    match mapGet parent t1 with
    | some (NVal.vrecs _) => .ok parent
    | some _ => .error (.notRecList (joinDots parts.dropLast) ruleNames)
    | none => .ok (mapSet parent t1 (NVal.vrecs []))
  | _ => .ok parent

/-- The nested-object walk of `prepare` over all but the last two name
segments: an existing non-map value is a name mismatch whose path joins
the segments already walked (`strings.Join(parts[0:i], ".")`); a missing
key becomes a fresh empty map.  The error aborts `prepare`, so the maps
the Go code has mutated into place by then are never observed. -/
def prepareSegs (ruleNames : List String) (parts : List String) :
    List String → List String → List String → NMap → Except NameMismatch NMap
  | _, [], terminals, parent => prepareTerminals ruleNames parts terminals parent
  | walked, s :: rest, terminals, parent =>
    match mapGet parent s with
    | some (NVal.vobj sub) =>
      match prepareSegs ruleNames parts (walked ++ [s]) rest terminals sub with
      | .error e => .error e
      | .ok sub2 => .ok (mapSet parent s (NVal.vobj sub2))
    | some _ => .error (.notObj (joinDots walked) ruleNames)
    | none =>
      match prepareSegs ruleNames parts (walked ++ [s]) rest terminals [] with
      | .error e => .error e
      | .ok sub2 => .ok (mapSet parent s (NVal.vobj sub2))

/-- `prepare` on one rule name (README-embedded variant): more than two
segments walk a nested-object chain and leave the last two segments as
terminals; otherwise the whole name is the terminals. -/
def prepareName (ruleNames : List String) (m : NMap) (name : String) :
    Except NameMismatch NMap :=
  let parts := splitName name
  if 2 < parts.length then
    prepareSegs ruleNames parts [] parts.dropLast.dropLast
      (List.drop (parts.length - 2) parts) m
  else
    prepareTerminals ruleNames parts parts m

/-- `prepare` from the README-embedded variant: initialize the map slots
for every rule name in turn, stopping at the first name mismatch.  `main`
runs it over all rule names at startup, before any url is fetched. -/
def prepare (ruleNames : List String) :
    NMap → List String → Except NameMismatch NMap
  | m, [] => .ok m
  | m, name :: names =>
    match prepareName ruleNames m name with
    | .error e => .error e
    | .ok m2 => prepare ruleNames m2 names

/-- The positional overwrite loop of `addValues` on a `[]string` slot
(README-embedded variant): index i of the new values replaces index i of
the current slice, appending past its end. -/
def overwriteExtend : List String → List String → List String
  | old, [] => old
  | [], v :: vs => v :: overwriteExtend [] vs
  | _ :: os, v :: vs => v :: overwriteExtend os vs

/-- The record loop of `addValues` on a `[]map[string]string` slot
(README-embedded variant): write value i into the named field of record
i, appending fresh one-field records past the end. -/
def setField : List (List (String × String)) → String → List String →
    List (List (String × String))
  | rs, _, [] => rs
  | [], field, v :: vs => [(field, v)] :: setField [] field vs
  | rec0 :: rest, field, v :: vs => mapSet rec0 field v :: setField rest field vs

/-- The terminal insertion of `addValues` (README-embedded variant).  The
Go code asserts the slot's type (`.([]string)`, `.([]map[string]string)`)
without checking; a failed assertion is a run-time panic, modelled as
`none`.  On a map that `prepare` accepted it cannot fail. -/
def addValuesTerminals (parent : NMap) :
    List String → List String → Option NMap
  | [t], vals =>
    match mapGet parent t with
    | some (NVal.vlist currVals) =>
      some (mapSet parent t (NVal.vlist (overwriteExtend currVals vals)))
    | _ => none
  | [t1, t2], vals =>
    match mapGet parent t1 with
    | some (NVal.vrecs objs) =>
      some (mapSet parent t1 (NVal.vrecs (setField objs t2 vals)))
    | _ => none
  | _, _ => none

/-- The nested-object walk of `addValues`: `parent[s].(map[string]any)`
asserted without checking — a missing key or another shape is a panic,
modelled as `none`. -/
def addValuesWalk : NMap → List String → List String → List String → Option NMap
  | parent, [], terminals, vals => addValuesTerminals parent terminals vals
  | parent, s :: rest, terminals, vals =>
    match mapGet parent s with
    | some (NVal.vobj sub) =>
      match addValuesWalk sub rest terminals vals with
      | none => none
      | some sub2 => some (mapSet parent s (NVal.vobj sub2))
    | _ => none

/-- `addValues` from the README-embedded variant: split the name on dots,
walk all but the last two segments, insert the values positionally at the
terminals.  It assumes the map was prepared and reports no errors. -/
def addValues (m : NMap) (name : String) (vals : List String) : Option NMap :=
  let parts := splitName name
  if 2 < parts.length then
    addValuesWalk m parts.dropLast.dropLast
      (List.drop (parts.length - 2) parts) vals
  else
    addValuesTerminals m parts vals

namespace readme

/-- `rule.apply` of the README-embedded variant: build the extracted
slice from `make([]string, 0)` exactly as the `part_001` variant does,
then hand its elements to `addValues` under the rule's name. -/
def rule.apply (r : rule) (doc : Doc) (m : NMap) : Option NMap :=
  addValues m r.Name
    (((doc r.Selector).foldl (fun acc e => acc.push (extractVal r e))
      GoStrSlice.make0).elems)

/-- The rule loop of `applyRules` in the README-embedded variant; a panic
inside `apply` (modelled `none`) propagates. -/
def applyRulesLoop : List rule → Doc → NMap → Option NMap
  | [], _, m => some m
  | r :: rs, doc, m =>
    match rule.apply r doc m with
    | none => none
    | some m2 => applyRulesLoop rs doc m2

end readme

/-- The `prepare`-then-apply sequence of `main` in the README-embedded
variant, for an already parsed document: `prepare` runs over all rule
names first, and its error is fatal before any rule is applied. -/
def readmeRun (rules : List rule) (doc : Doc) :
    Except NameMismatch (Option NMap) :=
  match prepare (rules.map rule.Name) [] (rules.map rule.Name) with
  | .error e => .error e
  | .ok m => .ok (readme.applyRulesLoop rules doc m)

/-- An empty document: no selector matches anything. -/
def emptyDoc : Doc := fun _ => []

/-- A document where every selector matches two elements with texts `A` and
`B`. -/
def twoDoc : Doc := fun _ => [⟨"A", []⟩, ⟨"B", []⟩]

/-- A document with three matches for selector `s1` and three for `s2`. -/
def doc6 : Doc := fun sel =>
  if sel = "s1" then [⟨"1", []⟩, ⟨"2", []⟩, ⟨"3", []⟩]
  else if sel = "s2" then [⟨"4", []⟩, ⟨"5", []⟩, ⟨"6", []⟩]
  else []

/-- A document whose single element's text is a numeric space entity. -/
def entityDoc : Doc := fun _ => [⟨"&#32;", []⟩]

/-- A network oracle that always fails with a transport error. -/
def failNet : String → FetchOutcome := fun _ => .netErr "down"

/-- A network oracle that always succeeds with a fixed body. -/
def okNet : String → FetchOutcome := fun _ => .resp 200 (.ok "<html>")

/-- A parser oracle returning the two-element document for every body. -/
def okParse : String → Except String Doc := fun _ => .ok twoDoc

theorem gslice_foldl (f : Element → String) (l : List Element) (s : GoStrSlice) :
    l.foldl (fun acc e => acc.push (f e)) s = ⟨s.elems ++ l.map f, s.isNil && l.isEmpty⟩ := by
  induction l generalizing s with
  | nil => cases s; simp
  | cons x xs ih =>
    simp only [List.foldl_cons, ih]
    cases s
    simp [GoStrSlice.push]

theorem humphrey_buildVals_eq (r : rule) (doc : Doc) :
    humphrey.rule.buildVals r doc = ⟨extractList r doc, (doc r.Selector).isEmpty⟩ := by
  simp [humphrey.rule.buildVals, gslice_foldl, GoStrSlice.nilSlice, extractList]

theorem part001_buildVals_eq (r : rule) (doc : Doc) :
    part001.rule.buildVals r doc = ⟨extractList r doc, false⟩ := by
  simp [part001.rule.buildVals, gslice_foldl, GoStrSlice.make0, extractList]

theorem mapGet_mapSet_self {α : Type} (m : List (String × α)) (k : String) (v : α) :
    mapGet (mapSet m k v) k = some v := by
  induction m with
  | nil => simp [mapSet, mapGet]
  | cons kv rest ih =>
    obtain ⟨k0, v0⟩ := kv
    by_cases h : k0 = k
    · subst h; simp [mapSet, mapGet]
    · simp [mapSet, mapGet, h, ih]

theorem splitFirst_some (c : Char) : ∀ (l a r : List Char),
    splitFirst c l = some (a, r) → l = a ++ c :: r ∧ c ∉ a := by
  intro l
  induction l with
  | nil => intro a r h; simp [splitFirst] at h
  | cons x xs ih =>
    intro a r h
    simp only [splitFirst] at h
    by_cases hx : x = c
    · rw [if_pos hx] at h
      obtain ⟨ha, hr⟩ : ([] : List Char) = a ∧ xs = r := by
        injection h with h1
        exact ⟨congrArg Prod.fst h1, congrArg Prod.snd h1⟩
      subst ha
      subst hr
      subst hx
      simp
    · rw [if_neg hx] at h
      cases hs : splitFirst c xs with
      | none => rw [hs] at h; cases h
      | some p =>
        obtain ⟨b, t⟩ := p
        rw [hs] at h
        have ha : a = x :: b := by
          injection h with h1
          exact (congrArg Prod.fst h1).symm
        have hr : r = t := by
          injection h with h1
          exact (congrArg Prod.snd h1).symm
        subst ha
        subst hr
        obtain ⟨hl, hnotin⟩ := ih b r hs
        subst hl
        refine ⟨by simp, ?_⟩
        intro hmem
        rcases List.mem_cons.mp hmem with h1 | h2
        · exact hx h1.symm
        · exact hnotin h2

theorem splitFirst_of_append (c : Char) : ∀ (a r : List Char), c ∉ a →
    splitFirst c (a ++ c :: r) = some (a, r) := by
  intro a
  induction a with
  | nil => intro r _; simp [splitFirst]
  | cons x xs ih =>
    intro r ha
    have hx : ¬ x = c := by
      intro h
      exact ha (by simp [h])
    have hxs : c ∉ xs := fun h => ha (List.mem_cons_of_mem _ h)
    show (if x = c then some (([] : List Char), xs ++ c :: r)
      else
        match splitFirst c (xs ++ c :: r) with
        | none => none
        | some (b, a) => some (x :: b, a)) = some (x :: xs, r)
    rw [if_neg hx, ih r hxs]

theorem splitFirst_eq_none (c : Char) : ∀ l : List Char,
    splitFirst c l = none ↔ c ∉ l := by
  intro l
  induction l with
  | nil => simp [splitFirst]
  | cons x xs ih =>
    simp only [splitFirst, List.mem_cons]
    by_cases hx : x = c
    · subst hx; simp
    · rw [if_neg hx]
      cases hs : splitFirst c xs with
      | none =>
        have hnx := ih.mp hs
        constructor
        · intro _ hmem
          rcases hmem with h1 | h2
          · exact hx h1.symm
          · exact hnx h2
        · intro _
          rfl
      | some p =>
        obtain ⟨b, t⟩ := p
        have hmem : c ∈ xs := by
          obtain ⟨hl, _⟩ := splitFirst_some c xs b t hs
          rw [hl]; simp
        constructor
        · intro h
          cases h
        · intro hcon
          exact absurd (Or.inr hmem) hcon

theorem mainLoop_cons_ok (step : String → Except ScrapeError RMap)
    (key : String) (strict : Bool) (l : String) (ls : List String) (m : RMap)
    (h : step (trimSpace l) = .ok m) :
    mainLoop step key strict (l :: ls) =
      (mapSet m key (Value.vStr (trimSpace l)) :: (mainLoop step key strict ls).1,
       (mainLoop step key strict ls).2) := by
  simp [mainLoop, h]

theorem mainLoop_cons_err (step : String → Except ScrapeError RMap)
    (key : String) (strict : Bool) (l : String) (ls : List String)
    (e : ScrapeError) (h : step (trimSpace l) = .error e) :
    mainLoop step key strict (l :: ls) =
      if strict then ([], some e) else mainLoop step key strict ls := by
  simp [mainLoop, h]

theorem mainLoop_allOk (step : String → Except ScrapeError RMap)
    (key : String) (strict : Bool) : ∀ ls : List String,
    (∀ x ∈ ls, ∃ m, step (trimSpace x) = .ok m) →
    (mainLoop step key strict ls).2 = none := by
  intro ls
  induction ls with
  | nil => intro _; rfl
  | cons l ls ih =>
    intro h
    obtain ⟨m, hm⟩ := h l (by simp)
    rw [mainLoop_cons_ok step key strict l ls m hm]
    exact ih (fun x hx => h x (by simp [hx]))

theorem mainLoop_mem (step : String → Except ScrapeError RMap)
    (key : String) (strict : Bool) : ∀ (ls : List String) (m : RMap),
    m ∈ (mainLoop step key strict ls).1 →
    ∃ l, l ∈ ls ∧ ∃ m0, step (trimSpace l) = .ok m0 ∧
      m = mapSet m0 key (Value.vStr (trimSpace l)) := by
  intro ls
  induction ls with
  | nil => intro m hm; simp [mainLoop] at hm
  | cons l ls ih =>
    intro m hm
    cases hstep : step (trimSpace l) with
    | ok m0 =>
      rw [mainLoop_cons_ok step key strict l ls m0 hstep] at hm
      rcases List.mem_cons.mp hm with h1 | h2
      · exact ⟨l, by simp, m0, hstep, h1⟩
      · obtain ⟨l2, hl2, m2, hm2, hmm⟩ := ih m h2
        exact ⟨l2, by simp [hl2], m2, hm2, hmm⟩
    | error e =>
      rw [mainLoop_cons_err step key strict l ls e hstep] at hm
      cases strict with
      | true => simp at hm
      | false =>
        simp only [if_neg (by simp : ¬ (false : Bool) = true)] at hm
        obtain ⟨l2, hl2, m2, hm2, hmm⟩ := ih m hm
        exact ⟨l2, by simp [hl2], m2, hm2, hmm⟩

/-- C1 (amended): under the lenient multiplicity policy (arrays flag off),
zero matches store Go nil (rendered as JSON null) under the rule's name,
one match stores that single string as a bare scalar, and N>1 matches store
the list of N strings in document order; under the forced-array policy
(arrays flag on), N≥1 matches store the list of N strings in document
order, but zero matches store the nil slice, which is rendered as JSON
null rather than as an empty list. -/
theorem humphrey_apply_multiplicity (r : rule) (doc : Doc) :
    (humphrey.rule.buildVals r doc).elems = extractList r doc ∧
    (extractList r doc = [] →
      humphrey.rule.applyVal r doc false = Value.vNil ∧
      humphrey.rule.applyVal r doc true = Value.vSlice ⟨[], true⟩ ∧
      Value.jsonShape (humphrey.rule.applyVal r doc true) = JSONShape.null) ∧
    (∀ v, extractList r doc = [v] →
      humphrey.rule.applyVal r doc false = Value.vStr v) ∧
    (1 < (extractList r doc).length →
      humphrey.rule.applyVal r doc false = Value.vSlice ⟨extractList r doc, false⟩) ∧
    (extractList r doc ≠ [] →
      humphrey.rule.applyVal r doc true = Value.vSlice ⟨extractList r doc, false⟩) := by
  refine ⟨by rw [humphrey_buildVals_eq], ?_, ?_, ?_, ?_⟩
  · intro h0
    have hsel : doc r.Selector = [] := by
      simpa [extractList] using h0
    refine ⟨?_, ?_, ?_⟩ <;>
      simp [humphrey.rule.applyVal, humphrey_buildVals_eq, extractList, hsel,
        Value.jsonShape]
  · intro v hv
    simp [humphrey.rule.applyVal, humphrey_buildVals_eq, hv]
  · intro h1
    have hne : doc r.Selector ≠ [] := by
      intro hsel
      simp [extractList, hsel] at h1
    have hfalse : (doc r.Selector).isEmpty = false := by
      cases hsel : doc r.Selector with
      | nil => exact absurd hsel hne
      | cons e es => rfl
    simp [humphrey.rule.applyVal, humphrey_buildVals_eq, hfalse, h1]
  · intro hne
    have hsne : doc r.Selector ≠ [] := by
      intro hsel
      exact hne (by simp [extractList, hsel])
    have hfalse : (doc r.Selector).isEmpty = false := by
      cases hsel : doc r.Selector with
      | nil => exact absurd hsel hsne
      | cons e es => rfl
    simp [humphrey.rule.applyVal, humphrey_buildVals_eq, hfalse]

/-- C1 witness: a two-match document under the lenient policy stores the
list in document order, and an empty document stores Go nil. -/
theorem humphrey_apply_multiplicity_witness :
    humphrey.rule.applyVal ⟨"k", "s", ""⟩ twoDoc false
      = Value.vSlice ⟨extractList ⟨"k", "s", ""⟩ twoDoc, false⟩ ∧
    extractList ⟨"k", "s", ""⟩ twoDoc = ["A", "B"] ∧
    humphrey.rule.applyVal ⟨"k", "s", ""⟩ emptyDoc false = Value.vNil :=
  ⟨(humphrey_apply_multiplicity ⟨"k", "s", ""⟩ twoDoc).2.2.2.1 (by decide),
   by decide,
   ((humphrey_apply_multiplicity ⟨"k", "s", ""⟩ emptyDoc).2.1 (by decide)).1⟩

/-- C1 counterexample: with the arrays flag on and zero matched elements,
the stored value is the nil slice, and `encoding/json` renders it as JSON
null — not as an empty list. -/
theorem humphrey_forced_empty_cex :
    humphrey.rule.applyVal ⟨"k", "s", ""⟩ emptyDoc true = Value.vSlice ⟨[], true⟩ ∧
    Value.jsonShape (humphrey.rule.applyVal ⟨"k", "s", ""⟩ emptyDoc true)
      = JSONShape.null ∧
    JSONShape.null ≠ JSONShape.array := by
  decide

/-- C2 (amended): for every element matching the rule's selector, taken in
document order, the extracted value is the attribute's value when the rule
names a present attribute, the empty string when the named attribute is
absent, and the element's full rendered text when no attribute is named —
in each case with leading/trailing whitespace trimming applied first and
HTML-entity unescaping applied second — and the extractor's output is an
ordered list with exactly one such string per matched element. -/
theorem extractor_per_element (r : rule) (doc : Doc) :
    (humphrey.rule.buildVals r doc).elems
      = (doc r.Selector).map (fun e => unescapeString (trimSpace (rawVal r e))) ∧
    (part001.rule.buildVals r doc).elems
      = (doc r.Selector).map (fun e => unescapeString (trimSpace (rawVal r e))) ∧
    (humphrey.rule.buildVals r doc).elems.length = (doc r.Selector).length ∧
    (∀ e : Element, r.Attribute = "" → rawVal r e = e.text) ∧
    (∀ e : Element, ∀ v, r.Attribute ≠ "" →
      mapGet e.attrs r.Attribute = some v → rawVal r e = v) ∧
    (∀ e : Element, r.Attribute ≠ "" →
      mapGet e.attrs r.Attribute = none → rawVal r e = "") := by
  refine ⟨?_, ?_, ?_, ?_, ?_, ?_⟩
  · rw [humphrey_buildVals_eq]
    simp [extractList, extractVal]
  · rw [part001_buildVals_eq]
    simp [extractList, extractVal]
  · rw [humphrey_buildVals_eq]
    simp [extractList]
  · intro e h
    simp [rawVal, h]
  · intro e v h hv
    simp [rawVal, h, hv]
  · intro e h hv
    simp [rawVal, h, hv]

/-- C2 witness: a rule naming a present attribute extracts its value, one
naming an absent attribute extracts the empty string. -/
theorem extractor_per_element_witness :
    rawVal ⟨"k", "s", "href"⟩ ⟨"T", [("href", "/x")]⟩ = "/x" ∧
    rawVal ⟨"k", "s", "href"⟩ ⟨"T", [("id", "3")]⟩ = "" ∧
    (humphrey.rule.buildVals ⟨"k", "s", ""⟩ twoDoc).elems
      = (twoDoc "s").map
          (fun e => unescapeString (trimSpace (rawVal ⟨"k", "s", ""⟩ e))) :=
  ⟨(extractor_per_element ⟨"k", "s", "href"⟩ twoDoc).2.2.2.2.1
      ⟨"T", [("href", "/x")]⟩ "/x" (by decide) (by decide),
   (extractor_per_element ⟨"k", "s", "href"⟩ twoDoc).2.2.2.2.2
      ⟨"T", [("id", "3")]⟩ (by decide) (by decide),
   (extractor_per_element ⟨"k", "s", ""⟩ twoDoc).1⟩

/-- C2 counterexample: the code trims before unescaping; on an element
whose text is the numeric entity for a space, the code extracts a single
space, while unescaping-then-trimming (the claimed order) would give the
empty string. -/
theorem extractor_order_cex :
    extractList ⟨"k", "s", ""⟩ entityDoc = [" "] ∧
    (entityDoc "s").map
        (fun e => trimSpace (unescapeString (rawVal ⟨"k", "s", ""⟩ e))) = [""] ∧
    (" " : String) ≠ "" := by
  decide

/-- C3 (amended): a rule string with no delimiter fails with a
malformed-rule error carrying the string; exactly one delimiter yields
name and selector with an empty attribute; two or more delimiters yield
the parts before the first and second delimiters as name and selector and
the whole remainder (delimiters included) as attribute — all verbatim,
with no whitespace trimming and no emptiness check on any part. -/
theorem newRule_shape (s : String) :
    ( ':' ∉ s.toList → newRule s = .error (.malformedRule s)) ∧
    (∀ a b : List Char, s.toList = a ++ ':' :: b → ':' ∉ a → ':' ∉ b →
      newRule s = .ok ⟨String.mk a, String.mk b, ""⟩) ∧
    (∀ a b c : List Char, s.toList = a ++ ':' :: b ++ ':' :: c →
      ':' ∉ a → ':' ∉ b →
      newRule s = .ok ⟨String.mk a, String.mk b, String.mk c⟩) := by
  refine ⟨?_, ?_, ?_⟩
  · intro h
    have h0 : splitFirst ':' s.data = none := (splitFirst_eq_none ':' s.data).mpr h
    simp [newRule, splitN3, h0]
  · intro a b hab ha hb
    have hd : s.data = a ++ ':' :: b := hab
    have h1 : splitFirst ':' s.data = some (a, b) := by
      rw [hd]; exact splitFirst_of_append ':' a b ha
    have h2 : splitFirst ':' b = none := (splitFirst_eq_none ':' b).mpr hb
    simp [newRule, splitN3, h1, h2]
  · intro a b c habc ha hb
    have hd : s.data = a ++ ':' :: b ++ ':' :: c := habc
    have h1 : splitFirst ':' s.data = some (a, b ++ ':' :: c) := by
      rw [hd, List.append_assoc, List.cons_append]
      exact splitFirst_of_append ':' a (b ++ ':' :: c) ha
    have h2 : splitFirst ':' (b ++ ':' :: c) = some (b, c) :=
      splitFirst_of_append ':' b c hb
    simp [newRule, splitN3, h1, h2]

/-- C3 witness: one delimiter gives a rule with an empty attribute, two
give the three parts. -/
theorem newRule_shape_witness :
    newRule "a:b" = Except.ok ⟨"a", "b", ""⟩ ∧
    newRule "a:b:c" = Except.ok ⟨"a", "b", "c"⟩ :=
  ⟨(newRule_shape "a:b").2.1 ['a'] ['b'] (by decide) (by decide) (by decide),
   (newRule_shape "a:b:c").2.2 ['a'] ['b'] ['c'] (by decide) (by decide)
     (by decide)⟩

/-- C3 counterexample: a string with three delimiters and an empty name
part parses successfully (the claim requires a malformed-rule failure for
both), and no whitespace trimming is performed on the parts. -/
theorem newRule_shape_cex :
    newRule ":b:c:d" = Except.ok ⟨"", "b", "c:d"⟩ ∧
    newRule "a : b" = Except.ok ⟨"a ", " b", ""⟩ := by
  decide

theorem readme_apply_vals (r : rule) (doc : Doc) (m : NMap) :
    readme.rule.apply r doc m = addValues m r.Name (extractList r doc) := by
  simp [readme.rule.apply, gslice_foldl, GoStrSlice.make0, extractList]

/-- C4: for two rules whose names share the first terminal segment and
differ in the second, each extracting three values, the prepared and then
applied result mapping holds under the shared segment an ordered list of
three records in which the i-th record holds the i-th value of each rule
under that rule's second terminal segment as field name. -/
theorem nested_record_zip (r1 r2 : rule) (doc : Doc) (a x y : String)
    (x0 x1 x2 y0 y1 y2 : String) (hxy : ¬ x = y)
    (h1 : splitName r1.Name = [a, x]) (h2 : splitName r2.Name = [a, y])
    (hv1 : extractList r1 doc = [x0, x1, x2])
    (hv2 : extractList r2 doc = [y0, y1, y2]) :
    ∃ m1, prepare [r1.Name, r2.Name] [] [r1.Name, r2.Name] = .ok m1 ∧
      ∃ m2, readme.rule.apply r1 doc m1 = some m2 ∧
        ∃ m3, readme.rule.apply r2 doc m2 = some m3 ∧
          mapGet m3 a = some (NVal.vrecs
            [[(x, x0), (y, y0)], [(x, x1), (y, y1)], [(x, x2), (y, y2)]]) := by
  refine ⟨[(a, NVal.vrecs [])], ?_,
    [(a, NVal.vrecs [[(x, x0)], [(x, x1)], [(x, x2)]])], ?_,
    [(a, NVal.vrecs
      [[(x, x0), (y, y0)], [(x, x1), (y, y1)], [(x, x2), (y, y2)]])], ?_, ?_⟩
  · simp [prepare, prepareName, h1, h2, prepareTerminals, mapGet, mapSet]
  · rw [readme_apply_vals, hv1]
    simp [addValues, h1, addValuesTerminals, mapGet, mapSet, setField]
  · rw [readme_apply_vals, hv2]
    simp [addValues, h2, addValuesTerminals, mapGet, mapSet, setField, hxy]
  · simp [mapGet]

/-- C4 witness: rules `a.x` and `a.y` with three matches each zip into
three two-field records under `a`. -/
theorem nested_record_zip_witness :
    ∃ m1, prepare ["a.x", "a.y"] [] ["a.x", "a.y"] = .ok m1 ∧
      ∃ m2, readme.rule.apply ⟨"a.x", "s1", ""⟩ doc6 m1 = some m2 ∧
        ∃ m3, readme.rule.apply ⟨"a.y", "s2", ""⟩ doc6 m2 = some m3 ∧
          mapGet m3 "a" = some (NVal.vrecs
            [[("x", "1"), ("y", "4")], [("x", "2"), ("y", "5")],
             [("x", "3"), ("y", "6")]]) :=
  nested_record_zip ⟨"a.x", "s1", ""⟩ ⟨"a.y", "s2", ""⟩ doc6 "a" "x" "y"
    "1" "2" "3" "4" "5" "6" (by decide) (by decide) (by decide)
    (by decide) (by decide)

/-- C5 (amended): shape conflicts are detected by the startup `prepare`
pass, which runs over all rule names before any url is processed: a
two-terminal name whose slot already holds a `[]string` fails with a
name-mismatch error naming the name without its final segment, and a
three-segment name whose first chain segment already holds a non-map
fails with a name-mismatch error naming the joined prefix of
already-walked segments (empty at the first segment) — in both cases
together with the list of all rule names, not the offending rule — and
the error is always fatal: `prepare` stops at the first mismatch and
`main` aborts before any rule is applied.  At application time
`addValues` produces no structured error on an incompatible slot: its
unchecked type assertion panics. -/
theorem nested_conflict_fatal :
    (∀ (ruleNames : List String) (m : NMap) (name a t2 : String)
      (xs : List String),
      splitName name = [a, t2] → mapGet m a = some (NVal.vlist xs) →
      prepareName ruleNames m name = .error (.notRecList a ruleNames)) ∧
    (∀ (ruleNames : List String) (m : NMap) (name seg t1 t2 : String)
      (sub : NVal),
      splitName name = [seg, t1, t2] →
      mapGet m seg = some sub → (∀ o, sub ≠ NVal.vobj o) →
      prepareName ruleNames m name = .error (.notObj "" ruleNames)) ∧
    (∀ (ruleNames : List String) (m : NMap) (name : String)
      (names : List String) (e : NameMismatch),
      prepareName ruleNames m name = .error e →
      prepare ruleNames m (name :: names) = .error e) ∧
    (∀ (rules : List rule) (doc : Doc) (e : NameMismatch),
      prepare (rules.map rule.Name) [] (rules.map rule.Name) = .error e →
      readmeRun rules doc = .error e) ∧
    (∀ (m : NMap) (name a t2 : String) (xs vals : List String),
      splitName name = [a, t2] → mapGet m a = some (NVal.vlist xs) →
      addValues m name vals = none) := by
  refine ⟨?_, ?_, ?_, ?_, ?_⟩
  · intro rn m name a t2 xs h hm
    simp [prepareName, h, prepareTerminals, hm, joinDots]
  · intro rn m name seg t1 t2 sub h hm hno
    cases sub with
    | vobj o => exact absurd rfl (hno o)
    | vstr s => simp [prepareName, h, prepareSegs, hm, joinDots]
    | vlist xs => simp [prepareName, h, prepareSegs, hm, joinDots]
    | vrecs rs => simp [prepareName, h, prepareSegs, hm, joinDots]
  · intro rn m name names e h
    simp [prepare, h]
  · intro rules doc e h
    simp [readmeRun, h]
  · intro m name a t2 xs vals h hm
    simp [addValues, h, addValuesTerminals, hm]

/-- C5 witness: concrete conflicts of both kinds, the prepare-level
abort of a name list and of a whole run, and the application-time
panic. -/
theorem nested_conflict_fatal_witness :
    prepareName ["a", "a.x"] [("a", NVal.vlist [])] "a.x"
      = .error (.notRecList "a" ["a", "a.x"]) ∧
    prepareName ["p.q.r"] [("p", NVal.vlist [])] "p.q.r"
      = .error (.notObj "" ["p.q.r"]) ∧
    prepare ["a", "a.x"] [("a", NVal.vlist [])] ["a.x"]
      = .error (.notRecList "a" ["a", "a.x"]) ∧
    readmeRun [⟨"a", "s1", ""⟩, ⟨"a.x", "s2", ""⟩] doc6
      = .error (.notRecList "a" ["a", "a.x"]) ∧
    addValues [("a", NVal.vlist [])] "a.x" ["1", "2", "3"] = none :=
  ⟨nested_conflict_fatal.1 ["a", "a.x"] [("a", NVal.vlist [])] "a.x"
      "a" "x" [] (by decide) rfl,
   nested_conflict_fatal.2.1 ["p.q.r"] [("p", NVal.vlist [])] "p.q.r"
      "p" "q" "r" (NVal.vlist []) (by decide) rfl
      (fun o h => NVal.noConfusion h),
   nested_conflict_fatal.2.2.1 ["a", "a.x"] [("a", NVal.vlist [])] "a.x"
      [] (NameMismatch.notRecList "a" ["a", "a.x"])
      (nested_conflict_fatal.1 ["a", "a.x"] [("a", NVal.vlist [])] "a.x"
        "a" "x" [] (by decide) rfl),
   nested_conflict_fatal.2.2.2.1 [⟨"a", "s1", ""⟩, ⟨"a.x", "s2", ""⟩] doc6
      (NameMismatch.notRecList "a" ["a", "a.x"]) rfl,
   nested_conflict_fatal.2.2.2.2 [("a", NVal.vlist [])] "a.x" "a" "x"
      [] ["1", "2", "3"] (by decide) rfl⟩

/-- C5 counterexample: with rules named `a` and `a.x`, the conflict is
reported by the startup `prepare` pass as a name mismatch naming the slot
path `a` — not the offending rule `a.x` — together with all rule names;
and at application time `addValues` produces no structured error at all
on the incompatible slot (its type assertion panics). -/
theorem nested_conflict_cex :
    prepare ["a", "a.x"] [] ["a", "a.x"]
      = .error (NameMismatch.notRecList "a" ["a", "a.x"]) ∧
    ("a" : String) ≠ "a.x" ∧
    addValues [("a", NVal.vlist [])] "a.x" ["v"] = none :=
  ⟨rfl, by decide, rfl⟩

/-- C6: when fetch-or-parse fails for a line's url, strict mode aborts the
whole run with that error and writes no output for that url (keeping only
the outputs of the preceding successful urls), while lenient mode produces
no output for that url, continues with the remaining lines, and exits
zero when they all succeed. -/
theorem strict_lenient_policy (net : String → FetchOutcome)
    (parseDoc : String → Except String Doc) (rules : List rule)
    (aflag : Bool) (key l : String) (ls : List String) (e : ScrapeError)
    (hfail : downloadAndApplyRules net parseDoc rules aflag (trimSpace l)
      = .error e) :
    mainLoop (downloadAndApplyRules net parseDoc rules aflag) key true (l :: ls)
      = ([], some e) ∧
    mainLoop (downloadAndApplyRules net parseDoc rules aflag) key false (l :: ls)
      = mainLoop (downloadAndApplyRules net parseDoc rules aflag) key false ls ∧
    ((∀ x ∈ ls, ∃ m,
        downloadAndApplyRules net parseDoc rules aflag (trimSpace x) = .ok m) →
      (mainLoop (downloadAndApplyRules net parseDoc rules aflag) key false
          (l :: ls)).2 = none) ∧
    (∀ pre : List String,
      (∀ x ∈ pre, ∃ m,
        downloadAndApplyRules net parseDoc rules aflag (trimSpace x) = .ok m) →
      (mainLoop (downloadAndApplyRules net parseDoc rules aflag) key true
          (pre ++ l :: ls)).2 = some e ∧
      (mainLoop (downloadAndApplyRules net parseDoc rules aflag) key true
          (pre ++ l :: ls)).1.length = pre.length) := by
  refine ⟨?_, ?_, ?_, ?_⟩
  · rw [mainLoop_cons_err _ _ _ _ _ _ hfail]
    simp
  · rw [mainLoop_cons_err _ _ _ _ _ _ hfail]
    simp
  · intro hok
    rw [mainLoop_cons_err _ _ _ _ _ _ hfail]
    simp only [Bool.false_eq_true, if_false]
    exact mainLoop_allOk _ _ _ ls hok
  · intro pre
    induction pre with
    | nil =>
      intro _
      rw [List.nil_append, mainLoop_cons_err _ _ _ _ _ _ hfail]
      simp
    | cons p pre ih =>
      intro hok
      obtain ⟨m, hm⟩ := hok p (by simp)
      have ih2 := ih (fun x hx => hok x (by simp [hx]))
      rw [List.cons_append, mainLoop_cons_ok _ _ _ _ _ _ hm]
      exact ⟨ih2.1, by simp [ih2.2]⟩

/-- C6 witness: a failing url aborts a strict run with its error and an
empty output list, and is skipped by a lenient run. -/
theorem strict_lenient_policy_witness :
    mainLoop (downloadAndApplyRules failNet okParse [] false) "key" true ["u"]
      = ([], some (ScrapeError.netFailure "down")) ∧
    mainLoop (downloadAndApplyRules failNet okParse [] false) "key" false ["u"]
      = mainLoop (downloadAndApplyRules failNet okParse [] false) "key" false [] :=
  ⟨(strict_lenient_policy failNet okParse [] false "key" "u" []
      (ScrapeError.netFailure "down") (by decide)).1,
   (strict_lenient_policy failNet okParse [] false "key" "u" []
      (ScrapeError.netFailure "down") (by decide)).2.1⟩

/-- C7 (amended): downloading fails exactly when a network error occurs
(on the request or while reading the body) or the response status is not
200 — so non-200 success statuses such as 204 are also rejected — and on
success the full response body is returned. -/
theorem download_status (o : FetchOutcome) (u : String) :
    ((∃ e, download o u = .error e) ↔
      (∃ msg, o = .netErr msg) ∨
      (∃ st br, o = .resp st br ∧ st ≠ 200) ∨
      (∃ st msg, o = .resp st (.error msg))) ∧
    (∀ body, o = .resp 200 (.ok body) → download o u = .ok body) := by
  constructor
  · cases o with
    | netErr msg => simp [download]
    | resp st br =>
      by_cases hst : st = 200
      · subst hst
        cases br with
        | error msg => simp [download]
        | ok body => simp [download]
      · simp [download, hst]
  · intro body h
    subst h
    simp [download]

/-- C7 witness: a 200 response returns its body, a transport error fails. -/
theorem download_status_witness :
    download (FetchOutcome.resp 200 (.ok "B")) "u" = .ok "B" ∧
    (∃ e, download (FetchOutcome.netErr "x") "u" = .error e) :=
  ⟨(download_status (FetchOutcome.resp 200 (.ok "B")) "u").2 "B" rfl,
   (download_status (FetchOutcome.netErr "x") "u").1.mpr (Or.inl ⟨"x", rfl⟩)⟩

/-- C7 counterexample: a 204 response — an HTTP success status — is
rejected by `download`, so "fails only on network error or non-success
status" does not hold of the code. -/
theorem download_status_cex :
    download (FetchOutcome.resp 204 (.ok "body")) "http://u"
      = .error (.httpStatus 204 "http://u") ∧
    isSuccessStatus 204 = true := by
  decide

/-- C8: with the page option absent the driver processes exactly the lines
of standard input, and every rendered result map carries its (trimmed)
url under the configured key, stored after all rules were applied. -/
theorem driver_stdin_and_key (net : String → FetchOutcome)
    (parseDoc : String → Except String Doc) (rules : List rule)
    (key : String) (strict aflag : Bool) (stdinLines : List String)
    (page : String) (hp : page = "") :
    humphreyRun net parseDoc rules key page strict aflag stdinLines
      = mainLoop (downloadAndApplyRules net parseDoc rules aflag) key strict
          stdinLines ∧
    (∀ m ∈ (humphreyRun net parseDoc rules key page strict aflag stdinLines).1,
      ∃ l, l ∈ stdinLines ∧
        ∃ m0, downloadAndApplyRules net parseDoc rules aflag (trimSpace l)
            = .ok m0 ∧
          m = mapSet m0 key (Value.vStr (trimSpace l)) ∧
          mapGet m key = some (Value.vStr (trimSpace l))) := by
  subst hp
  have hrun : humphreyRun net parseDoc rules key "" strict aflag stdinLines
      = mainLoop (downloadAndApplyRules net parseDoc rules aflag) key strict
          stdinLines := by
    simp [humphreyRun]
  refine ⟨hrun, ?_⟩
  intro m hm
  rw [hrun] at hm
  obtain ⟨l, hl, m0, h0, hmm⟩ := mainLoop_mem _ _ _ _ _ hm
  exact ⟨l, hl, m0, h0, hmm, by rw [hmm]; exact mapGet_mapSet_self _ _ _⟩

/-- C8 witness: one stdin line, successful fetch and parse, one rendered
map holding the rule's matches and the url under the key. -/
theorem driver_stdin_and_key_witness :
    humphreyRun okNet okParse [⟨"k", "s", ""⟩] "key" "" true false ["u1"]
      = mainLoop (downloadAndApplyRules okNet okParse [⟨"k", "s", ""⟩] false)
          "key" true ["u1"] ∧
    (humphreyRun okNet okParse [⟨"k", "s", ""⟩] "key" "" true false ["u1"]).1
      = [[("k", Value.vSlice ⟨["A", "B"], false⟩), ("key", Value.vStr "u1")]] :=
  ⟨(driver_stdin_and_key okNet okParse [⟨"k", "s", ""⟩] "key" true false
      ["u1"] "" rfl).1,
   by decide⟩

/-- C9: Go map writes are last-writer-wins — after two rules with the same
name, the entry under that name is the later rule's value — and the url,
written under the configured key after all rules ran, is the value found
under that key even when a rule used the same name. -/
theorem last_writer_wins :
    (∀ (r1 r2 : rule) (doc : Doc) (m : RMap) (aflag : Bool),
      r1.Name = r2.Name →
      mapGet (humphrey.rule.apply r2 doc (humphrey.rule.apply r1 doc m aflag)
          aflag) r1.Name
        = some (humphrey.rule.applyVal r2 doc aflag)) ∧
    (∀ (rules : List rule) (doc : Doc) (aflag : Bool) (key u : String),
      mapGet (mapSet (applyRules rules doc aflag) key (Value.vStr u)) key
        = some (Value.vStr u)) := by
  constructor
  · intro r1 r2 doc m aflag hname
    rw [hname]
    simp only [humphrey.rule.apply]
    exact mapGet_mapSet_self _ _ _
  · intro rules doc aflag key u
    exact mapGet_mapSet_self _ _ _

/-- C9 witness: two rules named `n` with different selectors — the second
one's value is what remains — and a rule named `key` is overwritten by the
url. -/
theorem last_writer_wins_witness :
    mapGet (humphrey.rule.apply ⟨"n", "s2", ""⟩ doc6
        (humphrey.rule.apply ⟨"n", "s1", ""⟩ doc6 [] false) false) "n"
      = some (humphrey.rule.applyVal ⟨"n", "s2", ""⟩ doc6 false) ∧
    humphrey.rule.applyVal ⟨"n", "s2", ""⟩ doc6 false
      = Value.vSlice ⟨["4", "5", "6"], false⟩ ∧
    humphrey.rule.applyVal ⟨"n", "s1", ""⟩ doc6 false
      = Value.vSlice ⟨["1", "2", "3"], false⟩ ∧
    mapGet (mapSet (applyRules [⟨"key", "s1", ""⟩] doc6 false) "key"
        (Value.vStr "http://u")) "key" = some (Value.vStr "http://u") :=
  ⟨last_writer_wins.1 ⟨"n", "s1", ""⟩ ⟨"n", "s2", ""⟩ doc6 [] false rfl,
   by decide, by decide,
   last_writer_wins.2 [⟨"key", "s1", ""⟩] doc6 false "key" "http://u"⟩

/-- C10: on a selector with at least one match, the `part_001` apply
stores exactly what the `humphrey.go` apply stores with the arrays flag
set; on zero matches, `part_001` stores an empty non-nil slice (a JSON
empty list) while `humphrey.go` with the arrays flag stores the nil
slice, which renders as JSON null. -/
theorem variants_agree (r : rule) (doc : Doc) (m : RMap) :
    (doc r.Selector ≠ [] →
      part001.rule.apply r doc m = humphrey.rule.apply r doc m true) ∧
    (doc r.Selector = [] →
      part001.rule.applyVal r doc = Value.vSlice ⟨[], false⟩ ∧
      humphrey.rule.applyVal r doc true = Value.vSlice ⟨[], true⟩ ∧
      Value.jsonShape (part001.rule.applyVal r doc) = JSONShape.array ∧
      Value.jsonShape (humphrey.rule.applyVal r doc true) = JSONShape.null) := by
  constructor
  · intro hne
    have hfalse : (doc r.Selector).isEmpty = false := by
      cases hsel : doc r.Selector with
      | nil => exact absurd hsel hne
      | cons e es => rfl
    simp [part001.rule.apply, humphrey.rule.apply, part001.rule.applyVal,
      humphrey.rule.applyVal, part001_buildVals_eq, humphrey_buildVals_eq,
      hfalse]
  · intro hsel
    refine ⟨?_, ?_, ?_, ?_⟩ <;>
      simp [part001.rule.applyVal, humphrey.rule.applyVal,
        part001_buildVals_eq, humphrey_buildVals_eq, extractList, hsel,
        Value.jsonShape]

/-- C10 witness: the variants agree on a two-match document, and differ as
stated on an empty one. -/
theorem variants_agree_witness :
    part001.rule.apply ⟨"k", "s", ""⟩ twoDoc []
      = humphrey.rule.apply ⟨"k", "s", ""⟩ twoDoc [] true ∧
    part001.rule.applyVal ⟨"k", "s", ""⟩ emptyDoc = Value.vSlice ⟨[], false⟩ ∧
    Value.jsonShape (humphrey.rule.applyVal ⟨"k", "s", ""⟩ emptyDoc true)
      = JSONShape.null :=
  ⟨(variants_agree ⟨"k", "s", ""⟩ twoDoc []).1 (by decide),
   ((variants_agree ⟨"k", "s", ""⟩ emptyDoc []).2 rfl).1,
   ((variants_agree ⟨"k", "s", ""⟩ emptyDoc []).2 rfl).2.2.2⟩

